import Mathlib

/-!
Verification of the AI-playlist generation pipeline of the extensions
repository (spotify-player, generatePlaylist and its helper variants).

The development shallowly embeds, from the TypeScript source:
* the JSON value model and a faithful model of JSON.parse
  (RFC 8259 grammar; string and number lexemes are kept raw, since no
  claim depends on escape decoding or float semantics);
* the response extractor and repairer of parseAiPlaylistResponse /
  cleanAIResponse (markdown-fence stripping, first-brace-to-last-brace
  span extraction, trailing-comma removal, brace-count truncation);
* the track resolver resolveTracksOnSpotify (strict search, lenient
  fallback, all-null check), with the search API modelled as an oracle
  from query strings to outcomes;
* the two deduplication variants (by track id, and by JS Set identity);
* the tune-history operations (append-with-truncate, and the delete
  handler of TuneHistoryList together with the jump guard it calls).
-/

namespace GenPlaylist

/-! ### JSON values

String and number payloads are stored as their raw source lexemes
(the characters between the quotes, escapes not decoded), which is all
the pipeline's claims depend on. -/

/-- Model of a parsed JSON value as produced by JSON.parse. -/
inductive Json where
  | null
  | bool (b : Bool)
  | num (lexeme : List Char)
  | str (raw : List Char)
  | arr (elems : List Json)
  | obj (members : List (List Char × Json))

/-! ### Lexing helpers -/

/-- Whitespace accepted between JSON tokens by JSON.parse (RFC 8259). -/
def isWs (c : Char) : Bool := c = ' ' || c = '\t' || c = '\n' || c = '\r'

/-- Drop insignificant whitespace. -/
def skipWs (cs : List Char) : List Char := cs.dropWhile isWs

/-- Decimal digit, by code point. -/
def isDigit (c : Char) : Bool := 48 ≤ c.toNat && c.toNat ≤ 57

/-- Hexadecimal digit, for the four digits of a unicode escape. -/
def isHex (c : Char) : Bool :=
  isDigit c || (97 ≤ c.toNat && c.toNat ≤ 102) || (65 ≤ c.toNat && c.toNat ≤ 70)

/-- Single-character escapes accepted after a backslash in a JSON string. -/
def isEsc (c : Char) : Bool :=
  c = '"' || c = '\\' || c = '/' || c = 'b' || c = 'f' || c = 'n' || c = 'r' || c = 't'

/-- Parse the body of a JSON string after the opening quote, returning the
raw (undecoded) lexeme and the input after the closing quote. Escapes are
validated exactly as JSON.parse does; control characters are rejected. -/
def pStringBody : List Char → Option (List Char × List Char)
  | [] => none
  | c :: rest =>
    if c = '"' then some ([], rest)
    else if c = '\\' then
      match rest with
      | [] => none
      | e :: rest1 =>
        if e = 'u' then
          match rest1 with
          | h1 :: h2 :: h3 :: h4 :: rest2 =>
            if isHex h1 && isHex h2 && isHex h3 && isHex h4 then
              (pStringBody rest2).map
                (fun p => ('\\' :: 'u' :: h1 :: h2 :: h3 :: h4 :: p.1, p.2))
            else none
          | _ => none
        else if isEsc e then
          (pStringBody rest1).map (fun p => ('\\' :: e :: p.1, p.2))
        else none
    else if c.toNat < 32 then none
    else (pStringBody rest).map (fun p => (c :: p.1, p.2))

/-- Parse one or more decimal digits. -/
def digits1 (cs : List Char) : Option (List Char × List Char) :=
  if cs.takeWhile isDigit = [] then none
  else some (cs.takeWhile isDigit, cs.dropWhile isDigit)

/-- Parse the integer part of a JSON number (0, or a nonzero digit followed
by digits; leading zeros are rejected, as by JSON.parse). -/
def pIntPart : List Char → Option (List Char × List Char)
  | [] => none
  | c :: r =>
    if c = '0' then some (['0'], r)
    else if isDigit c then some (c :: r.takeWhile isDigit, r.dropWhile isDigit)
    else none

/-- Parse an optional fraction part; a dot not followed by digits fails. -/
def pFracPart : List Char → Option (List Char × List Char)
  | [] => some ([], [])
  | c :: r =>
    if c = '.' then (digits1 r).map (fun p => ('.' :: p.1, p.2))
    else some ([], c :: r)

/-- Parse the content of an exponent after its marker: an optional sign
followed by one or more digits. -/
def pExpTail (c : Char) : List Char → Option (List Char × List Char)
  | [] => none
  | s :: r2 =>
    if s = '+' || s = '-' then (digits1 r2).map (fun p => (c :: s :: p.1, p.2))
    else (digits1 (s :: r2)).map (fun p => (c :: p.1, p.2))

/-- Parse an optional exponent part; an exponent marker with no digits fails. -/
def pExpPart : List Char → Option (List Char × List Char)
  | [] => some ([], [])
  | c :: r =>
    if c = 'e' || c = 'E' then pExpTail c r
    else some ([], c :: r)

/-- Parse a JSON number, returning its raw lexeme. -/
def pNumber (cs : List Char) : Option (List Char × List Char) :=
  let (neg, cs1) : List Char × List Char :=
    match cs with
    | [] => ([], [])
    | c :: r => if c = '-' then (['-'], r) else ([], c :: r)
  (pIntPart cs1).bind (fun pi =>
    (pFracPart pi.2).bind (fun pf =>
      (pExpPart pf.2).map (fun pe => (neg ++ pi.1 ++ pf.1 ++ pe.1, pe.2))))

/-- Parse an atomic JSON value (string, literal, or number). -/
def pAtom (cs : List Char) : Option (Json × List Char) :=
  match cs with
  | [] => none
  | c :: r =>
    if c = '"' then (pStringBody r).map (fun p => (Json.str p.1, p.2))
    else if cs.take 4 = ['n', 'u', 'l', 'l'] then some (Json.null, cs.drop 4)
    else if cs.take 4 = ['t', 'r', 'u', 'e'] then some (Json.bool true, cs.drop 4)
    else if cs.take 5 = ['f', 'a', 'l', 's', 'e'] then some (Json.bool false, cs.drop 5)
    else (pNumber cs).map (fun p => (Json.num p.1, p.2))

mutual

/-- Parse a JSON value whose first token starts at the head of the input
(no leading whitespace). Fuel bounds the recursion depth. -/
def pValue : Nat → List Char → Option (Json × List Char)
  | 0, _ => none
  | Nat.succ n, cs =>
    match cs with
    | [] => none
    | c :: rest =>
      if c = '{' then
        match skipWs rest with
        | [] => none
        | c2 :: r2 =>
          if c2 = '}' then some (Json.obj [], r2)
          else (pMembers n (c2 :: r2)).map (fun p => (Json.obj p.1, p.2))
      else if c = '[' then
        match skipWs rest with
        | [] => none
        | c2 :: r2 =>
          if c2 = ']' then some (Json.arr [], r2)
          else (pElems n (c2 :: r2)).map (fun p => (Json.arr p.1, p.2))
      else pAtom (c :: rest)

/-- Parse the elements of a non-empty array, including the closing bracket. -/
def pElems : Nat → List Char → Option (List Json × List Char)
  | 0, _ => none
  | Nat.succ n, cs =>
    match pValue n cs with
    | none => none
    | some (v, r1) =>
      match skipWs r1 with
      | [] => none
      | c2 :: r2 =>
        if c2 = ',' then (pElems n (skipWs r2)).map (fun p => (v :: p.1, p.2))
        else if c2 = ']' then some ([v], r2)
        else none

/-- Parse the members of a non-empty object, including the closing brace. -/
def pMembers : Nat → List Char → Option (List (List Char × Json) × List Char)
  | 0, _ => none
  | Nat.succ n, cs =>
    match cs with
    | [] => none
    | c :: cs1 =>
      if c = '"' then
        match pStringBody cs1 with
        | none => none
        | some (k, cs2) =>
          match skipWs cs2 with
          | [] => none
          | c3 :: cs4 =>
            if c3 = ':' then
              match pValue n (skipWs cs4) with
              | none => none
              | some (v, cs6) =>
                match skipWs cs6 with
                | [] => none
                | c7 :: cs8 =>
                  if c7 = ',' then
                    (pMembers n (skipWs cs8)).map (fun p => ((k, v) :: p.1, p.2))
                  else if c7 = '}' then some ([(k, v)], cs8)
                  else none
            else none
      else none

end

/-- Model of JSON.parse: optional whitespace, one value, optional
whitespace, end of input. The fuel is generous; at most two fuel units
are spent per consumed character. -/
def jsonParse (cs : List Char) : Option Json :=
  match pValue (2 * cs.length + 2) (skipWs cs) with
  | some (v, rest) => if skipWs rest = [] then some v else none
  | none => none

/-- Last-occurrence association lookup: JSON.parse gives later duplicate
keys precedence, so property access reads the last binding. -/
def lookupField : List (List Char × Json) → List Char → Option Json
  | [], _ => none
  | (k, v) :: ms, key =>
    match lookupField ms key with
    | some r => some r
    | none => if k = key then some v else none

/-- Property access on a parsed value, as in playlist.tracks; reading a
property of a non-object yields nothing (undefined). -/
def getField (j : Json) (key : List Char) : Option Json :=
  match j with
  | Json.obj ms => lookupField ms key
  | _ => none

/-! ### Response extractor and repairer

These embed the string-cleanup stages of parseAiPlaylistResponse
(generatePlaylist.tsx and its part_000 variant) and cleanAIResponse
(the helper variant): markdown fence extraction, the first-brace to
last-brace span, removal of trailing commas before a closing brace or
bracket, and the brace-counting truncation used on parse failure. -/

/-- Whitespace class of the JavaScript regexes (the s-class) and of
String.trim, restricted to the ASCII characters that can occur here. -/
def isRegexWs (c : Char) : Bool :=
  c = ' ' || c = '\t' || c = '\n' || c = '\r' || c = '\x0b' || c = '\x0c'

/-- Match a whitespace run followed by a closing brace or bracket, the
continuation of the regex that strips trailing commas. -/
def wsCloseSplit (cs : List Char) : Option (List Char × Char × List Char) :=
  match cs.dropWhile isRegexWs with
  | c :: r => if c = '}' || c = ']' then some (cs.takeWhile isRegexWs, c, r) else none
  | [] => none

/-- Fuelled scan of the trailing-comma replace. The fuel only serves
termination; one unit is spent per character of output, so fuel equal to
the input length always suffices. -/
def removeTCF : Nat → List Char → List Char
  | _, [] => []
  | 0, cs => cs
  | Nat.succ n, c :: rest =>
    if c = ',' then
      match wsCloseSplit rest with
      | some (_, cl, r) => cl :: removeTCF n r
      | none => ',' :: removeTCF n rest
    else c :: removeTCF n rest

/-- Removal of trailing commas: the global replace of a comma plus
whitespace before a closing brace or bracket by that closing character,
scanning left to right as String.replace does. -/
def removeTC (cs : List Char) : List Char := removeTCF cs.length cs

/-- Contribution of one character to the brace count of the repair
loop. -/
def braceDelta (c : Char) : Int :=
  if c = '{' then 1 else if c = '}' then -1 else 0

/-- Brace-count scan of the repair step: running over the characters,
report how many characters precede and include the first closing brace
at which the count returns to zero, if the scan ever breaks. -/
def braceCutLen : Int → List Char → Option Nat
  | _, [] => none
  | k, c :: rest =>
    if c = '}' && decide (k + braceDelta c = 0) then some 1
    else (braceCutLen (k + braceDelta c) rest).map (· + 1)

/-- Truncation of the repair step: cut the string just after the closing
brace where the count returns to zero; keep it whole if the loop never
breaks (endIndex stays at the length). -/
def braceCut (cs : List Char) : List Char :=
  match braceCutLen 0 cs with
  | some e => cs.take e
  | none => cs

/-- Backtick character, the fence delimiter. -/
def tick : Char := Char.ofNat 96

/-- Whether a character list starts with two backticks, the lookahead of
the fence scan. -/
def fenceAt (r : List Char) : Bool :=
  match r with
  | c2 :: c3 :: _ => c2 = tick && c3 = tick
  | _ => false

/-- Scan for the first occurrence of a triple backtick, returning the
characters before it and the characters after it. -/
def findFence : List Char → Option (List Char × List Char)
  | [] => none
  | c :: r =>
    if c = tick && fenceAt r then some ([], r.drop 2)
    else (findFence r).map (fun p => (c :: p.1, p.2))

/-- Inner content of the first fenced code block, per the regex of the
source: after the opening fence, an optional literal json tag and greedy
whitespace are skipped, and the lazily captured content runs to the next
fence. Nothing is returned when no complete block exists. -/
def fenceExtract (cs : List Char) : Option (List Char) :=
  match findFence cs with
  | none => none
  | some (_, r) =>
    let r1 := if r.take 4 = ['j', 's', 'o', 'n'] then r.drop 4 else r
    let r2 := r1.dropWhile isRegexWs
    match findFence r2 with
    | none => none
    | some (inner, _) => some inner

/-- Model of String.trim: strip whitespace from both ends. -/
def trim (cs : List Char) : List Char :=
  ((cs.dropWhile isRegexWs).reverse.dropWhile isRegexWs).reverse

/-- Candidate JSON span: from the first opening brace to the textually
last closing brace, the match of the brace-to-brace regex; nothing when
no such span exists. -/
def extractBraces (cs : List Char) : Option (List Char) :=
  match cs.dropWhile (fun c => !(c = '{')) with
  | [] => none
  | fromBrace =>
    match fromBrace.reverse.dropWhile (fun c => !(c = '}')) with
    | [] => none
    | revSpan => some revSpan.reverse

/-- Fence handling of the extractor: content of the first fenced block,
trimmed, when a block exists; the whole response otherwise. -/
def preClean (data : List Char) : List Char :=
  match fenceExtract data with
  | some inner => trim inner
  | none => data

/-- Candidate span of the extractor, before comma cleanup. -/
def spanOf (data : List Char) : Option (List Char) :=
  (extractBraces (preClean data))

/-- Extractor of the helper variant (cleanAIResponse): fence handling,
brace span, trailing-comma removal; nothing models its thrown no-JSON
error. -/
def cleanAIResponse (data : List Char) : Option (List Char) :=
  (spanOf data).map removeTC

/-- Error taxonomy of the parse pipeline: no JSON object locatable, both
parse attempts failed, or the tracks validation failed. -/
inductive PErr where
  | noJson
  | parseFailed
  | noSongs
deriving DecidableEq

/-- Key of the tracks property. -/
def tracksKey : List Char := ['t', 'r', 'a', 'c', 'k', 's']

/-- Validation of the parsed playlist: the tracks property must be a
non-empty array, otherwise the pipeline throws its no-songs error. -/
def validateTracks (v : Json) : Except PErr Json :=
  match getField v tracksKey with
  | some (Json.arr (_ :: _)) => Except.ok v
  | _ => Except.error PErr.noSongs

/-- Full parse pipeline of parseAiPlaylistResponse (part_000 variant,
which includes the validation): fence handling, brace span, trailing
comma removal, first parse attempt, brace-count repair and second parse
attempt, then validation of the tracks property. -/
def parseAiPlaylistResponse (data : List Char) : Except PErr Json :=
  match spanOf data with
  | none => Except.error PErr.noJson
  | some span =>
    let s1 := removeTC span
    match jsonParse s1 with
    | some v => validateTracks v
    | none =>
      match jsonParse (braceCut s1) with
      | some v => validateTracks v
      | none => Except.error PErr.parseFailed

/-! ### Brace-depth machinery

Apparatus for reasoning about the repair step's brace counting on
parsed JSON text. -/

/-- Brace count accumulated over a character list. -/
def deltaSum (cs : List Char) : Int := (cs.map braceDelta).sum

/-- Character that is not a brace. -/
def nonBraceChar (c : Char) : Bool := !(c = '{') && !(c = '}')

/-- Character list free of brace characters. -/
def noBrace (cs : List Char) : Bool := cs.all nonBraceChar

mutual

/-- JSON value whose string lexemes (including object keys) contain no
brace character. -/
def noBraceJ : Json → Bool
  | Json.null => true
  | Json.bool _ => true
  | Json.num _ => true
  | Json.str raw => noBrace raw
  | Json.arr vs => noBraceL vs
  | Json.obj ms => noBraceM ms

/-- List version of noBraceJ. -/
def noBraceL : List Json → Bool
  | [] => true
  | v :: vs => noBraceJ v && noBraceL vs

/-- Member-list version of noBraceJ. -/
def noBraceM : List (List Char × Json) → Bool
  | [] => true
  | (k, v) :: ms => noBrace k && noBraceJ v && noBraceM ms

end

/-- Character list whose brace count is zero and never negative on any
prefix: the consumed text of a parsed JSON value with brace-free string
lexemes. -/
def zeroPfx (C : List Char) : Prop :=
  deltaSum C = 0 ∧ ∀ ℓ : Nat, 0 ≤ deltaSum (C.take ℓ)

/-- Character list whose brace count is minus one, non-negative on every
proper prefix: the consumed text of an object-member list together with
its closing brace. -/
def negPfx (C : List Char) : Prop :=
  deltaSum C = -1 ∧ ∀ ℓ : Nat, ℓ < C.length → 0 ≤ deltaSum (C.take ℓ)

/-- Exact parse of a JSON object: the whole input is consumed by one
object value starting at its first character. -/
def jsonObjectExact (j : List Char) : Option Json :=
  match pValue (2 * j.length + 2) j with
  | some (Json.obj ms, []) => some (Json.obj ms)
  | _ => none

/-! ### Version history stack (cursor-based variant)

The tune flow of generatePlaylist.tsx and its part_000 variant keeps an
explicit currentIndex cursor. Appending a tuned version truncates the
history to the prefix through the cursor and pushes the new version,
then advances the cursor by one. -/

/-- History transition of tunePlaylist: keep the versions up to and
including the cursor, push the new version, advance the cursor. -/
def appendVersion {α : Type} (hist : List α) (currentIndex : Nat) (newVersion : α) :
    List α × Nat :=
  (hist.take (currentIndex + 1) ++ [newVersion], currentIndex + 1)

/-- Cursor transition of revertToPrevious: step back unless already at
the first version. -/
def revertToPrevious (hist : List α) (currentIndex : Nat) : Nat :=
  if 0 < currentIndex ∧ currentIndex < hist.length then currentIndex - 1 else currentIndex

/-- Cursor transition of redoNext: step forward unless already at the
last version. -/
def redoNext (hist : List α) (currentIndex : Nat) : Nat :=
  if currentIndex + 1 < hist.length then currentIndex + 1 else currentIndex

/-- Cursor transition of jumpToVersion: move to the requested index when
it is in range, otherwise do nothing. -/
def jumpToVersion (hist : List α) (currentIndex : Nat) (index : Nat) : Nat :=
  if index < hist.length then index else currentIndex

/-! ### Version history with a selected playlist (delete-capable variant)

The variant holding TuneHistoryList with deletion keeps the current
version as an object reference and derives the index with indexOf, so
the index is minus one when the selected version is not in the history.
Event handlers read the state captured at render time: when
handleDelete updates the history and then calls the jump callback, the
callback's range check and indexing still use the pre-delete history. -/

/-- UI state of the delete-capable variant: the history list and the
currently selected version (an object reference, possibly stale). -/
structure TuneState (α : Type) where
  history : List α
  currentPlaylist : Option α

/-- Model of Array.prototype.indexOf: index of the first occurrence, or
minus one. -/
def idxOf [DecidableEq α] (l : List α) (a : α) : Int :=
  match l.findIdx? (fun x => decide (x = a)) with
  | some i => (i : Int)
  | none => -1

/-- Derived currentIndex of the delete-capable variant. -/
def currentIndexState [DecidableEq α] (st : TuneState α) : Int :=
  match st.currentPlaylist with
  | none => -1
  | some p => idxOf st.history p

/-- Model of jumpToVersion as invoked through the onSelect callback: the
range check and the indexing both use the history captured when the
callback was created. -/
def jumpSelect (closedHistory : List α) (cur : Option α) (index : Int) : Option α :=
  if 0 ≤ index ∧ index < closedHistory.length then
    match closedHistory.get? index.toNat with
    | some v => some v
    | none => cur
  else cur

/-- Model of handleDelete in TuneHistoryList: remove the version at the
given index, then re-select depending on how the cursor compares to the
deleted index; the selection callback closes over the pre-delete
history. -/
def handleDelete [DecidableEq α] (st : TuneState α) (index : Nat) : TuneState α :=
  let c : Int := currentIndexState st
  let newHistory := st.history.eraseIdx index
  let target : Int :=
    if c > (index : Int) then c - 1
    else if c = (index : Int) ∧ 0 < newHistory.length then max 0 (c - 1)
    else c
  { history := newHistory
    currentPlaylist := jumpSelect st.history st.currentPlaylist target }

/-- History invariant claimed by the specification: whenever the history
is non-empty the current index is a valid position. -/
def histInvariant [DecidableEq α] (st : TuneState α) : Prop :=
  st.history ≠ [] →
    0 ≤ currentIndexState st ∧ currentIndexState st < st.history.length

/-! ### Track resolver

resolveTracksOnSpotify of the part_000 variant. The search API is an
oracle from query strings to outcomes; a call either returns a list of
items or throws. Each suggestion is looked up with a strict
field-filtered query and, if that returns no item, with a lenient
unfiltered query; a thrown call is caught and the position records
null. After the parallel resolution, an all-null result throws. -/

/-- Spotify track record; distinct fetches of the same track yield
distinct objects, modelled by the ref component. -/
structure Track where
  id : String
  ref : Nat
deriving DecidableEq

/-- Suggestion produced by the AI: a title and an artist. -/
structure AiTrack where
  title : String
  artist : String
deriving DecidableEq

/-- Outcome of one searchTracks call: a response with items, or a thrown
error. -/
inductive SearchOutcome where
  | ok (items : List Track)
  | threw
deriving DecidableEq

/-- First item of a search outcome, if any. -/
def firstItem : SearchOutcome → Option Track
  | SearchOutcome.ok items => items.head?
  | SearchOutcome.threw => none

/-- Strict query of the first attempt. -/
def strictQuery (song : AiTrack) : String :=
  "track:" ++ song.title ++ " artist:" ++ song.artist

/-- Lenient query of the fallback attempt. -/
def lenientQuery (song : AiTrack) : String :=
  song.title ++ " " ++ song.artist

/-- Resolution of one suggestion: strict search first; on a response
with no item, lenient search; a throw in the first call skips the
fallback, and any failure records null. -/
def resolveOne (search : String → SearchOutcome) (song : AiTrack) : Option Track :=
  match search (strictQuery song) with
  | SearchOutcome.threw => none
  | SearchOutcome.ok items =>
    match items.head? with
    | some t => some t
    | none =>
      match search (lenientQuery song) with
      | SearchOutcome.threw => none
      | SearchOutcome.ok items2 => items2.head?

/-- Error thrown when no suggestion resolved (NoTracksResolvedError of
the specification). -/
inductive ResolveError where
  | noTracksResolved
deriving DecidableEq

/-- Full resolver: resolve every suggestion, then fail if no position
found a track. -/
def resolveTracksOnSpotify (search : String → SearchOutcome) (aiTracks : List AiTrack) :
    Except ResolveError (List (Option Track)) :=
  let tracks := aiTracks.map (resolveOne search)
  if (tracks.filter (fun t => t.isSome)).length = 0 then
    Except.error ResolveError.noTracksResolved
  else Except.ok tracks

/-! ### Deduplication variants -/

/-- Auxiliary scan of the Set-based deduplication: keep the first
occurrence of each element, comparing as the JS Set does (reference
identity for objects, value identity for null). -/
def jsSetDedupAux [DecidableEq α] (seen : List α) : List α → List α
  | [] => []
  | x :: xs =>
    if x ∈ seen then jsSetDedupAux seen xs
    else x :: jsSetDedupAux (x :: seen) xs

/-- Deduplication of the generatePlaylist.tsx Command: spreading the
track list through a Set. -/
def jsSetDedup [DecidableEq α] (l : List α) : List α := jsSetDedupAux [] l

/-- Deduplication of the part_000 Command: keep an entry exactly when it
is non-null and the first index whose entry has the same track id is its
own index. -/
def dedupById (arr : List (Option Track)) : List (Option Track) :=
  (arr.enum.filter (fun p =>
    match p.2 with
    | none => false
    | some tr =>
      arr.findIdx (fun o =>
        match o with
        | none => false
        | some t2 => decide (t2.id = tr.id)) = p.1)).map (fun p => p.2)

/-! ### Trailing-comma apparatus

Side conditions under which inserting a trailing comma before a closing
character is undone by the cleanup replace. -/

/-- No comma of the text is followed only by whitespace up to the end of
the text: such a pending comma would fuse with a closing character
appended right after the text. -/
def noPendingComma : List Char → Bool
  | [] => true
  | c :: rest => (!(c = ',' && rest.all isRegexWs)) && noPendingComma rest

/-- Text free of the backtick fence delimiter. -/
def noTick (cs : List Char) : Bool := cs.all (fun c => !(c = tick))

/-- A response wrapping a body in a fenced json code block, the shape the
extractor's fence regex is written for. -/
def fenceWrap (b : List Char) : List Char :=
  tick :: tick :: tick :: 'j' :: 's' :: 'o' :: 'n' :: '\n' ::
    (b ++ '\n' :: tick :: tick :: tick :: [])

/-! ## Theorems -/

/-! ### Brace-depth algebra -/

theorem deltaSum_nil : deltaSum [] = 0 := rfl

theorem deltaSum_cons (c : Char) (cs : List Char) :
    deltaSum (c :: cs) = braceDelta c + deltaSum cs := by
  simp [deltaSum]

theorem deltaSum_append (a b : List Char) :
    deltaSum (a ++ b) = deltaSum a + deltaSum b := by
  simp [deltaSum]

theorem braceDelta_open : braceDelta '{' = 1 := rfl

theorem noBrace_braceDelta {c : Char} (h : nonBraceChar c = true) :
    braceDelta c = 0 := by
  simp only [nonBraceChar, Bool.and_eq_true, Bool.not_eq_true',
    decide_eq_false_iff_not] at h
  simp [braceDelta, h.1, h.2]

theorem noBrace_deltaSum {cs : List Char} (h : noBrace cs = true) :
    deltaSum cs = 0 := by
  induction cs with
  | nil => rfl
  | cons c cs ih =>
    rw [noBrace, List.all_cons, Bool.and_eq_true] at h
    rw [deltaSum_cons, noBrace_braceDelta h.1, ih h.2]
    ring

theorem noBrace_take {cs : List Char} (h : noBrace cs = true) (ℓ : Nat) :
    noBrace (cs.take ℓ) = true := by
  rw [noBrace, List.all_eq_true]
  intro x hx
  exact List.all_eq_true.1 h x (List.mem_of_mem_take hx)

theorem noBrace_zeroPfx {cs : List Char} (h : noBrace cs = true) : zeroPfx cs :=
  ⟨noBrace_deltaSum h, fun ℓ => by rw [noBrace_deltaSum (noBrace_take h ℓ)]⟩

theorem zeroPfx_append {a b : List Char} (ha : zeroPfx a) (hb : zeroPfx b) :
    zeroPfx (a ++ b) := by
  refine ⟨by rw [deltaSum_append, ha.1, hb.1]; ring, fun ℓ => ?_⟩
  rw [List.take_append_eq_append_take, deltaSum_append]
  have h1 := ha.2 ℓ
  have h2 := hb.2 (ℓ - a.length)
  omega

theorem negPfx_ne_nil {B : List Char} (hB : negPfx B) : B ≠ [] := by
  intro h
  rw [h] at hB
  exact absurd hB.1 (by decide)

theorem zeroPfx_negPfx_append {a b : List Char} (ha : zeroPfx a) (hb : negPfx b) :
    negPfx (a ++ b) := by
  refine ⟨by rw [deltaSum_append, ha.1, hb.1]; ring, fun ℓ hℓ => ?_⟩
  rw [List.length_append] at hℓ
  rw [List.take_append_eq_append_take, deltaSum_append]
  have h1 := ha.2 ℓ
  rcases Nat.lt_or_ge ℓ a.length with hcase | hcase
  · have h2 : deltaSum (b.take (ℓ - a.length)) = 0 := by
      rw [Nat.sub_eq_zero_of_le (Nat.le_of_lt hcase), List.take_zero, deltaSum_nil]
    omega
  · have h2 := hb.2 (ℓ - a.length) (by omega)
    omega

theorem negPfx_singleton_close : negPfx ['}'] := by
  refine ⟨by decide, fun ℓ hℓ => ?_⟩
  have : ℓ = 0 := by simpa using hℓ
  subst this
  simp [deltaSum]

theorem zeroPfx_close {a : List Char} (ha : zeroPfx a) : negPfx (a ++ ['}']) :=
  zeroPfx_negPfx_append ha negPfx_singleton_close

theorem negPfx_open {B : List Char} (hB : negPfx B) : zeroPfx ('{' :: B) := by
  refine ⟨by rw [deltaSum_cons, braceDelta_open, hB.1]; ring, fun ℓ => ?_⟩
  cases ℓ with
  | zero => simp [deltaSum]
  | succ m =>
    rw [List.take_succ_cons, deltaSum_cons, braceDelta_open]
    rcases Nat.lt_or_ge m B.length with hm | hm
    · have := hB.2 m hm
      omega
    · rw [List.take_of_length_le hm, hB.1]
      norm_num

theorem zeroPfx_cons0 {c : Char} {B : List Char} (hc : braceDelta c = 0)
    (hB : zeroPfx B) : zeroPfx (c :: B) := by
  have h1 : zeroPfx [c] := by
    refine ⟨by simp [deltaSum, hc], fun ℓ => ?_⟩
    cases ℓ <;> simp [deltaSum, hc]
  exact zeroPfx_append h1 hB

/-! ### Decomposition of parsed text -/

theorem skipWs_decomp {cs r : List Char} (h : skipWs cs = r) :
    cs = cs.takeWhile isWs ++ r := by
  rw [← h, skipWs]
  exact (List.takeWhile_append_dropWhile isWs cs).symm

theorem noBrace_takeWhile_isWs (cs : List Char) :
    noBrace (cs.takeWhile isWs) = true := by
  rw [noBrace, List.all_eq_true]
  intro x hx
  have hw : isWs x = true := List.mem_takeWhile_imp hx
  simp only [isWs, Bool.or_eq_true, decide_eq_true_eq] at hw
  rcases hw with ((h | h) | h) | h <;> subst h <;> decide

theorem zeroPfx_ws (cs : List Char) : zeroPfx (cs.takeWhile isWs) :=
  noBrace_zeroPfx (noBrace_takeWhile_isWs cs)

theorem pStringBody_eq (cs : List Char) :
    ∀ raw rest, pStringBody cs = some (raw, rest) → cs = (raw ++ ['"']) ++ rest := by
  induction cs using pStringBody.induct with
  | case1 =>
    intro raw rest h
    exact nomatch h
  | case2 rest1 =>
    intro raw rest h
    rw [pStringBody.eq_def] at h
    simp at h
    obtain ⟨h1, h2⟩ := h
    subst h1
    subst h2
    simp
  | case3 hne =>
    intro raw rest h
    rw [pStringBody.eq_def] at h
    simp at h
  | case4 h1 h2 h3 h4 rest2 hhex hne ih =>
    intro raw rest h
    rw [pStringBody.eq_def] at h
    simp [hhex] at h
    obtain ⟨a, hp, hr⟩ := h
    subst hr
    rw [ih a rest hp]
    simp
  | case5 h1 h2 h3 h4 rest2 hhex hne =>
    intro raw rest h
    rw [pStringBody.eq_def] at h
    simp [hhex] at h
  | case6 rest1 hx hne =>
    intro raw rest h
    rcases rest1 with _ | ⟨a, _ | ⟨b, _ | ⟨c, _ | ⟨d, r⟩⟩⟩⟩
    · rw [pStringBody.eq_def] at h; simp at h
    · rw [pStringBody.eq_def] at h; simp at h
    · rw [pStringBody.eq_def] at h; simp at h
    · rw [pStringBody.eq_def] at h; simp at h
    · exact absurd rfl (hx a b c d r)
  | case7 e rest1 hu hesc hne ih =>
    intro raw rest h
    rw [pStringBody.eq_def] at h
    simp [hu, hesc] at h
    obtain ⟨a, hp, hr⟩ := h
    subst hr
    rw [ih a rest hp]
    simp
  | case8 e rest1 hu hesc hne =>
    intro raw rest h
    rw [pStringBody.eq_def] at h
    simp [hu, hesc] at h
  | case9 e rest1 hq hb hctl =>
    intro raw rest h
    rw [pStringBody.eq_def] at h
    simp [hq, hb, hctl] at h
  | case10 e rest1 hq hb hctl ih =>
    intro raw rest h
    rw [pStringBody.eq_def] at h
    simp [hq, hb, hctl] at h
    obtain ⟨a, hp, hr⟩ := h
    subst hr
    rw [ih a rest hp]
    simp

/-! ### Consumed text of atomic parses -/

theorem isDigit_noBraceChar {c : Char} (h : isDigit c = true) :
    nonBraceChar c = true := by
  simp only [isDigit, Bool.and_eq_true, decide_eq_true_eq] at h
  simp only [nonBraceChar, Bool.and_eq_true, Bool.not_eq_true',
    decide_eq_false_iff_not]
  constructor <;> rintro rfl <;> exact absurd h (by decide)

theorem noBrace_takeWhile_isDigit (cs : List Char) :
    noBrace (cs.takeWhile isDigit) = true := by
  rw [noBrace, List.all_eq_true]
  intro x hx
  exact isDigit_noBraceChar (List.mem_takeWhile_imp hx)

theorem digits1_eq {cs d rest : List Char} (h : digits1 cs = some (d, rest)) :
    cs = d ++ rest ∧ noBrace d = true := by
  unfold digits1 at h
  by_cases hnil : cs.takeWhile isDigit = []
  · rw [if_pos hnil] at h
    exact nomatch h
  · rw [if_neg hnil] at h
    cases h
    exact ⟨(List.takeWhile_append_dropWhile isDigit cs).symm,
      noBrace_takeWhile_isDigit cs⟩

theorem pIntPart_eq {cs i rest : List Char} (h : pIntPart cs = some (i, rest)) :
    cs = i ++ rest ∧ noBrace i = true := by
  cases cs with
  | nil => exact nomatch h
  | cons c r =>
    rw [pIntPart] at h
    by_cases h0 : c = '0'
    · rw [if_pos h0] at h
      cases h
      subst h0
      exact ⟨rfl, by decide⟩
    · rw [if_neg h0] at h
      by_cases hd : isDigit c = true
      · rw [if_pos hd] at h
        cases h
        refine ⟨?_, ?_⟩
        · conv_lhs => rw [show r = r.takeWhile isDigit ++ r.dropWhile isDigit from
            (List.takeWhile_append_dropWhile isDigit r).symm]
          rfl
        · rw [noBrace, List.all_cons, Bool.and_eq_true]
          exact ⟨isDigit_noBraceChar hd, noBrace_takeWhile_isDigit r⟩
      · rw [if_neg hd] at h
        exact nomatch h

theorem pFracPart_eq {cs f rest : List Char} (h : pFracPart cs = some (f, rest)) :
    cs = f ++ rest ∧ noBrace f = true := by
  cases cs with
  | nil =>
    cases h
    exact ⟨rfl, rfl⟩
  | cons c r =>
    rw [pFracPart] at h
    by_cases hdot : c = '.'
    · rw [if_pos hdot] at h
      rw [Option.map_eq_some'] at h
      obtain ⟨⟨d, r2⟩, hd, heq⟩ := h
      cases heq
      obtain ⟨hr, hnb⟩ := digits1_eq hd
      subst hdot
      refine ⟨by rw [hr]; rfl, ?_⟩
      rw [noBrace, List.all_cons, Bool.and_eq_true]
      exact ⟨by decide, hnb⟩
    · rw [if_neg hdot] at h
      cases h
      exact ⟨rfl, rfl⟩

theorem pExpTail_eq {c : Char} {r e rest : List Char}
    (hc : (c = 'e' || c = 'E') = true) (h : pExpTail c r = some (e, rest)) :
    r = e.tail ++ rest ∧ e.head? = some c ∧ noBrace e = true := by
  have hcnb : nonBraceChar c = true := by
    simp only [Bool.or_eq_true, decide_eq_true_eq] at hc
    rcases hc with rfl | rfl <;> decide
  cases r with
  | nil => exact nomatch h
  | cons s r2 =>
    rw [pExpTail] at h
    by_cases hs : (s = '+' || s = '-') = true
    · rw [if_pos hs] at h
      rw [Option.map_eq_some'] at h
      obtain ⟨⟨d, r3⟩, hd, heq⟩ := h
      cases heq
      obtain ⟨hr, hnb⟩ := digits1_eq hd
      have hsnb : nonBraceChar s = true := by
        simp only [Bool.or_eq_true, decide_eq_true_eq] at hs
        rcases hs with rfl | rfl <;> decide
      refine ⟨?_, rfl, ?_⟩
      · show s :: r2 = s :: (d ++ r3)
        rw [hr]
      · rw [noBrace, List.all_cons, List.all_cons, Bool.and_eq_true, Bool.and_eq_true]
        exact ⟨hcnb, hsnb, hnb⟩
    · rw [if_neg hs] at h
      rw [Option.map_eq_some'] at h
      obtain ⟨⟨d, r3⟩, hd, heq⟩ := h
      cases heq
      obtain ⟨hr, hnb⟩ := digits1_eq hd
      refine ⟨hr, rfl, ?_⟩
      rw [noBrace, List.all_cons, Bool.and_eq_true]
      exact ⟨hcnb, hnb⟩

theorem pExpPart_eq {cs e rest : List Char} (h : pExpPart cs = some (e, rest)) :
    cs = e ++ rest ∧ noBrace e = true := by
  cases cs with
  | nil =>
    cases h
    exact ⟨rfl, rfl⟩
  | cons c r =>
    rw [pExpPart] at h
    by_cases he : (c = 'e' || c = 'E') = true
    · rw [if_pos he] at h
      obtain ⟨h1, h2, h3⟩ := pExpTail_eq he h
      refine ⟨?_, h3⟩
      cases e with
      | nil => exact nomatch h2
      | cons e0 etail =>
        simp only [List.head?] at h2
        cases h2
        rw [h1]
        rfl
    · rw [if_neg he] at h
      cases h
      exact ⟨rfl, rfl⟩

theorem noBrace_append_iff (a b : List Char) :
    noBrace (a ++ b) = (noBrace a && noBrace b) := by
  simp [noBrace, List.all_append]

theorem pNumber_eq {cs lex rest : List Char} (h : pNumber cs = some (lex, rest)) :
    cs = lex ++ rest ∧ noBrace lex = true := by
  have main : ∀ neg cs1, (noBrace neg = true) → (cs = neg ++ cs1) →
      (pIntPart cs1).bind (fun pi =>
        (pFracPart pi.2).bind (fun pf =>
          (pExpPart pf.2).map (fun pe => (neg ++ pi.1 ++ pf.1 ++ pe.1, pe.2)))) =
        some (lex, rest) →
      cs = lex ++ rest ∧ noBrace lex = true := by
    intro neg cs1 hnegnb hcs h
    cases hi : pIntPart cs1 with
    | none => rw [hi] at h; exact nomatch h
    | some p1 =>
      obtain ⟨i, cs2⟩ := p1
      rw [hi] at h
      simp only [Option.some_bind] at h
      obtain ⟨hi1, hi2⟩ := pIntPart_eq hi
      cases hf : pFracPart cs2 with
      | none => rw [hf] at h; exact nomatch h
      | some p2 =>
        obtain ⟨f, cs3⟩ := p2
        rw [hf] at h
        simp only [Option.some_bind] at h
        obtain ⟨hf1, hf2⟩ := pFracPart_eq hf
        cases hx : pExpPart cs3 with
        | none => rw [hx] at h; exact nomatch h
        | some p3 =>
          obtain ⟨ex, cs4⟩ := p3
          rw [hx] at h
          simp only [Option.map_some'] at h
          obtain ⟨hx1, hx2⟩ := pExpPart_eq hx
          cases h
          constructor
          · rw [hcs, hi1, hf1, hx1]
            simp [List.append_assoc]
          · rw [noBrace_append_iff, noBrace_append_iff, noBrace_append_iff]
            rw [hnegnb, hi2, hf2, hx2]
            rfl
  cases cs with
  | nil =>
    rw [pNumber] at h
    exact main [] [] rfl rfl h
  | cons c r =>
    rw [pNumber] at h
    by_cases hneg : c = '-'
    · rw [if_pos hneg] at h
      subst hneg
      exact main ['-'] r (by decide) rfl h
    · rw [if_neg hneg] at h
      exact main [] (c :: r) rfl rfl h

theorem pAtom_eq {cs : List Char} {v : Json} {rest : List Char}
    (h : pAtom cs = some (v, rest)) :
    ∃ C, cs = C ++ rest ∧ (noBraceJ v = true → noBrace C = true) ∧
      ∀ ms, ¬ v = Json.obj ms := by
  cases cs with
  | nil => exact nomatch h
  | cons c r =>
    rw [pAtom] at h
    by_cases hq : c = '"'
    · rw [if_pos hq] at h
      rw [Option.map_eq_some'] at h
      obtain ⟨⟨raw, r2⟩, hp, heq⟩ := h
      cases heq
      refine ⟨c :: (raw ++ ['"']), ?_, ?_, by intro ms hc; exact nomatch hc⟩
      · rw [pStringBody_eq r raw r2 hp]
        rfl
      · intro hnb
        simp only [noBraceJ] at hnb
        subst hq
        rw [show ('"' : Char) :: (raw ++ ['"']) = ['"'] ++ raw ++ ['"'] from rfl]
        rw [noBrace_append_iff, noBrace_append_iff, hnb]
        decide
    · rw [if_neg hq] at h
      by_cases h4 : (c :: r).take 4 = ['n', 'u', 'l', 'l']
      · rw [if_pos h4] at h
        cases h
        refine ⟨['n', 'u', 'l', 'l'], ?_, fun _ => by decide,
          by intro ms hc; exact nomatch hc⟩
        conv_lhs => rw [← List.take_append_drop 4 (c :: r)]
        rw [h4]
      · rw [if_neg h4] at h
        by_cases ht : (c :: r).take 4 = ['t', 'r', 'u', 'e']
        · rw [if_pos ht] at h
          cases h
          refine ⟨['t', 'r', 'u', 'e'], ?_, fun _ => by decide,
            by intro ms hc; exact nomatch hc⟩
          conv_lhs => rw [← List.take_append_drop 4 (c :: r)]
          rw [ht]
        · rw [if_neg ht] at h
          by_cases hf : (c :: r).take 5 = ['f', 'a', 'l', 's', 'e']
          · rw [if_pos hf] at h
            cases h
            refine ⟨['f', 'a', 'l', 's', 'e'], ?_, fun _ => by decide,
              by intro ms hc; exact nomatch hc⟩
            conv_lhs => rw [← List.take_append_drop 5 (c :: r)]
            rw [hf]
          · rw [if_neg hf] at h
            rw [Option.map_eq_some'] at h
            obtain ⟨⟨lex, r2⟩, hp, heq⟩ := h
            cases heq
            obtain ⟨h1, h2⟩ := pNumber_eq hp
            exact ⟨lex, h1, fun _ => h2, by intro ms hc; exact nomatch hc⟩

/-! ### Depth invariant of parsed text

For every successful parse, the consumed characters form a block whose
brace count is balanced (zero for a value, minus one for a member list
with its closing brace) and never dips below the balance point early,
provided the parsed value carries no brace inside its string lexemes. -/

theorem zeroPfx_nil : zeroPfx [] :=
  ⟨rfl, fun ℓ => by simp [deltaSum]⟩

theorem negPfx_cons0 {c : Char} {D : List Char} (hc : braceDelta c = 0)
    (hD : negPfx D) : negPfx (c :: D) :=
  zeroPfx_negPfx_append (zeroPfx_cons0 hc zeroPfx_nil) hD

theorem skipWs_split (t : List Char) :
    ∃ w, t = w ++ skipWs t ∧ zeroPfx w :=
  ⟨t.takeWhile isWs, skipWs_decomp rfl, zeroPfx_ws t⟩

theorem depthInv : ∀ n : Nat,
    (∀ cs v rest, pValue n cs = some (v, rest) →
      ∃ C, cs = C ++ rest ∧ (noBraceJ v = true → zeroPfx C)) ∧
    (∀ cs vs rest, pElems n cs = some (vs, rest) →
      ∃ C, cs = C ++ rest ∧ (noBraceL vs = true → zeroPfx C)) ∧
    (∀ cs ms rest, pMembers n cs = some (ms, rest) →
      ∃ C, cs = C ++ rest ∧ (noBraceM ms = true → negPfx C)) := by
  intro n
  induction n with
  | zero =>
    refine ⟨?_, ?_, ?_⟩ <;> intro cs x rest h <;> exact nomatch h
  | succ n ih =>
    obtain ⟨ihV, ihE, ihM⟩ := ih
    refine ⟨?_, ?_, ?_⟩
    · -- values
      intro cs v rest h
      cases cs with
      | nil => exact nomatch h
      | cons c rest0 =>
        rw [pValue] at h
        split at h
        case isTrue hc =>
          subst hc
          split at h
          case h_1 heq => exact nomatch h
          case h_2 c2 r2 heq =>
            obtain ⟨w, ew, zw⟩ := skipWs_split rest0
            rw [heq] at ew
            split at h
            case isTrue hc2 =>
              subst hc2
              rw [Option.some.injEq, Prod.mk.injEq] at h
              obtain ⟨hv, hr⟩ := h
              subst hv
              subst hr
              refine ⟨'{' :: (w ++ ['}']), ?_, ?_⟩
              · rw [ew]
                simp
              · intro _
                exact negPfx_open (zeroPfx_close zw)
            case isFalse hc2 =>
              rw [Option.map_eq_some'] at h
              obtain ⟨⟨ms, r3⟩, hp, heq2⟩ := h
              rw [Prod.mk.injEq] at heq2
              obtain ⟨hv, hr⟩ := heq2
              subst hv
              subst hr
              obtain ⟨Cm, hCm, hMn⟩ := ihM _ _ _ hp
              refine ⟨'{' :: (w ++ Cm), ?_, ?_⟩
              · rw [ew, hCm]
                simp
              · intro hnb
                simp only [noBraceJ] at hnb
                exact negPfx_open (zeroPfx_negPfx_append zw (hMn hnb))
        case isFalse hc =>
          split at h
          case isTrue harr =>
            split at h
            case h_1 heq => exact nomatch h
            case h_2 c2 r2 heq =>
              obtain ⟨w, ew, zw⟩ := skipWs_split rest0
              rw [heq] at ew
              split at h
              case isTrue hc2 =>
                subst harr
                subst hc2
                rw [Option.some.injEq, Prod.mk.injEq] at h
                obtain ⟨hv, hr⟩ := h
                subst hv
                subst hr
                refine ⟨'[' :: (w ++ [']']), ?_, ?_⟩
                · rw [ew]
                  simp
                · intro _
                  exact zeroPfx_cons0 (by decide)
                    (zeroPfx_append zw (noBrace_zeroPfx (by decide)))
              case isFalse hc2 =>
                subst harr
                rw [Option.map_eq_some'] at h
                obtain ⟨⟨vs, r3⟩, hp, heq2⟩ := h
                rw [Prod.mk.injEq] at heq2
                obtain ⟨hv, hr⟩ := heq2
                subst hv
                subst hr
                obtain ⟨Ce, hCe, hEn⟩ := ihE _ _ _ hp
                refine ⟨'[' :: (w ++ Ce), ?_, ?_⟩
                · rw [ew, hCe]
                  simp
                · intro hnb
                  simp only [noBraceJ] at hnb
                  exact zeroPfx_cons0 (by decide) (zeroPfx_append zw (hEn hnb))
          case isFalse harr =>
            obtain ⟨C, hC, hnbc, hno⟩ := pAtom_eq h
            exact ⟨C, hC, fun hnb => noBrace_zeroPfx (hnbc hnb)⟩
    · -- array elements
      intro cs vs rest h
      rw [pElems] at h
      split at h
      case h_1 => exact nomatch h
      case h_2 v r1 heqV =>
        obtain ⟨Cv, hCv, hVn⟩ := ihV _ _ _ heqV
        split at h
        case h_1 heq => exact nomatch h
        case h_2 c2 r2 heq =>
          obtain ⟨w1, ew1, zw1⟩ := skipWs_split r1
          rw [heq] at ew1
          split at h
          case isTrue hc2 =>
            subst hc2
            rw [Option.map_eq_some'] at h
            obtain ⟨⟨vs2, r3⟩, hp, heq2⟩ := h
            rw [Prod.mk.injEq] at heq2
            obtain ⟨hv, hr⟩ := heq2
            subst hv
            subst hr
            obtain ⟨w2, ew2, zw2⟩ := skipWs_split r2
            obtain ⟨Ce, hCe, hEn⟩ := ihE _ _ _ hp
            refine ⟨Cv ++ (w1 ++ (',' :: (w2 ++ Ce))), ?_, ?_⟩
            · rw [hCv, ew1, ew2, hCe]
              simp
            · intro hnb
              simp only [noBraceL, Bool.and_eq_true] at hnb
              exact zeroPfx_append (hVn hnb.1)
                (zeroPfx_append zw1 (zeroPfx_cons0 (by decide)
                  (zeroPfx_append zw2 (hEn hnb.2))))
          case isFalse hc2 =>
            split at h
            case isTrue hc2b =>
              subst hc2b
              rw [Option.some.injEq, Prod.mk.injEq] at h
              obtain ⟨hv, hr⟩ := h
              subst hv
              subst hr
              refine ⟨Cv ++ (w1 ++ [']']), ?_, ?_⟩
              · rw [hCv, ew1]
                simp
              · intro hnb
                simp only [noBraceL, Bool.and_eq_true] at hnb
                exact zeroPfx_append (hVn hnb.1)
                  (zeroPfx_append zw1 (noBrace_zeroPfx (by decide)))
            case isFalse hc2b => exact nomatch h
    · -- object members
      intro cs ms rest h
      cases cs with
      | nil => exact nomatch h
      | cons c cs1 =>
        rw [pMembers] at h
        split at h
        case isFalse hq => exact nomatch h
        case isTrue hq =>
          subst hq
          split at h
          case h_1 => exact nomatch h
          case h_2 k cs2 heqS =>
            have hs1 : cs1 = (k ++ ['"']) ++ cs2 := pStringBody_eq cs1 k cs2 heqS
            split at h
            case h_1 heq => exact nomatch h
            case h_2 c3 cs4 heq3 =>
              obtain ⟨w1, ew1, zw1⟩ := skipWs_split cs2
              rw [heq3] at ew1
              split at h
              case isFalse hc3 => exact nomatch h
              case isTrue hc3 =>
                subst hc3
                split at h
                case h_1 => exact nomatch h
                case h_2 v cs6 heqV =>
                  obtain ⟨w2, ew2, zw2⟩ := skipWs_split cs4
                  obtain ⟨Cv, hCv, hVn⟩ := ihV _ _ _ heqV
                  split at h
                  case h_1 heq => exact nomatch h
                  case h_2 c7 cs8 heq7 =>
                    obtain ⟨w3, ew3, zw3⟩ := skipWs_split cs6
                    rw [heq7] at ew3
                    split at h
                    case isTrue hc7 =>
                      subst hc7
                      rw [Option.map_eq_some'] at h
                      obtain ⟨⟨ms2, r3⟩, hp, heq2⟩ := h
                      rw [Prod.mk.injEq] at heq2
                      obtain ⟨hv, hr⟩ := heq2
                      subst hv
                      subst hr
                      obtain ⟨w4, ew4, zw4⟩ := skipWs_split cs8
                      obtain ⟨Cm, hCm, hMn⟩ := ihM _ _ _ hp
                      refine ⟨'"' :: ((k ++ ['"']) ++ (w1 ++ (':' :: (w2 ++ (Cv ++
                        (w3 ++ (',' :: (w4 ++ Cm)))))))), ?_, ?_⟩
                      · rw [hs1, ew1, ew2, hCv, ew3, ew4, hCm]
                        simp
                      · intro hnb
                        simp only [noBraceM, Bool.and_eq_true] at hnb
                        obtain ⟨⟨hk, hv⟩, hms⟩ := hnb
                        have zA : zeroPfx (k ++ ['"']) :=
                          zeroPfx_append (noBrace_zeroPfx hk)
                            (noBrace_zeroPfx (by decide))
                        exact negPfx_cons0 (by decide)
                          (zeroPfx_negPfx_append zA
                            (zeroPfx_negPfx_append zw1
                              (negPfx_cons0 (by decide)
                                (zeroPfx_negPfx_append zw2
                                  (zeroPfx_negPfx_append (hVn hv)
                                    (zeroPfx_negPfx_append zw3
                                      (negPfx_cons0 (by decide)
                                        (zeroPfx_negPfx_append zw4
                                          (hMn hms)))))))))
                    case isFalse hc7 =>
                      split at h
                      case isFalse hc7b => exact nomatch h
                      case isTrue hc7b =>
                        subst hc7b
                        rw [Option.some.injEq, Prod.mk.injEq] at h
                        obtain ⟨hv, hr⟩ := h
                        subst hv
                        subst hr
                        refine ⟨'"' :: ((k ++ ['"']) ++ (w1 ++ (':' :: (w2 ++ (Cv ++
                          (w3 ++ ['}'])))))), ?_, ?_⟩
                        · rw [hs1, ew1, ew2, hCv, ew3]
                          simp
                        · intro hnb
                          simp only [noBraceM, Bool.and_eq_true] at hnb
                          obtain ⟨⟨hk, hv⟩, hms⟩ := hnb
                          have zA : zeroPfx (k ++ ['"']) :=
                            zeroPfx_append (noBrace_zeroPfx hk)
                              (noBrace_zeroPfx (by decide))
                          exact negPfx_cons0 (by decide)
                            (zeroPfx_negPfx_append zA
                              (zeroPfx_negPfx_append zw1
                                (negPfx_cons0 (by decide)
                                  (zeroPfx_negPfx_append zw2
                                    (zeroPfx_negPfx_append (hVn hv)
                                      (zeroPfx_negPfx_append zw3
                                        negPfx_singleton_close))))))


/-- Shape of a parsed object: an opening brace followed by a block that
closes exactly one brace and never dips below balance early. -/
theorem pValue_obj_shape {n : Nat} {cs : List Char} {ms : List (List Char × Json)}
    {rest : List Char} (h : pValue n cs = some (Json.obj ms, rest))
    (hnb : noBraceM ms = true) :
    ∃ B, cs = ('{' :: B) ++ rest ∧ negPfx B := by
  cases n with
  | zero => exact nomatch h
  | succ n =>
    cases cs with
    | nil => exact nomatch h
    | cons c rest0 =>
      rw [pValue] at h
      split at h
      case isTrue hc =>
        subst hc
        split at h
        case h_1 => exact nomatch h
        case h_2 c2 r2 heq =>
          obtain ⟨w, ew, zw⟩ := skipWs_split rest0
          rw [heq] at ew
          split at h
          case isTrue hc2 =>
            subst hc2
            rw [Option.some.injEq, Prod.mk.injEq] at h
            obtain ⟨hv, hr⟩ := h
            refine ⟨w ++ ['}'], ?_, zeroPfx_close zw⟩
            rw [ew, ← hr]
            simp
          case isFalse hc2 =>
            rw [Option.map_eq_some'] at h
            obtain ⟨⟨ms2, r3⟩, hp, heq2⟩ := h
            rw [Prod.mk.injEq] at heq2
            obtain ⟨hv, hr⟩ := heq2
            have hms : ms2 = ms := by injection hv
            subst hms
            subst hr
            obtain ⟨Cm, hCm, hMn⟩ := (depthInv n).2.2 _ _ _ hp
            refine ⟨w ++ Cm, ?_, zeroPfx_negPfx_append zw (hMn hnb)⟩
            rw [ew, hCm]
            simp
      case isFalse hc =>
        split at h
        case isTrue harr =>
          split at h
          case h_1 => exact nomatch h
          case h_2 c2 r2 heq =>
            split at h
            case isTrue hc2 =>
              rw [Option.some.injEq, Prod.mk.injEq] at h
              exact nomatch h.1
            case isFalse hc2 =>
              rw [Option.map_eq_some'] at h
              obtain ⟨⟨vs, r3⟩, hp, heq2⟩ := h
              rw [Prod.mk.injEq] at heq2
              exact nomatch heq2.1
        case isFalse harr =>
          obtain ⟨C, hC, hnbc, hno⟩ := pAtom_eq h
          exact absurd rfl (hno ms)

/-- Completion of the brace scan: on a block that closes its opening
balance exactly at its end and stays at or above it before, the scan
breaks exactly at the end of the block. -/
theorem braceScanComplete : ∀ (B : List Char) (k : Int),
    (∀ ℓ : Nat, ℓ < B.length → 1 ≤ k + deltaSum (B.take ℓ)) →
    k + deltaSum B = 0 → B ≠ [] →
    braceCutLen k B = some B.length := by
  intro B
  induction B with
  | nil =>
    intro k h1 h2 h3
    exact absurd rfl h3
  | cons c B2 ih =>
    intro k h1 h2 _
    have h1k : 1 ≤ k := by
      have := h1 0 (by simp)
      simpa [deltaSum] using this
    cases B2 with
    | nil =>
      have hd : deltaSum [c] = braceDelta c := by simp [deltaSum]
      have hbd : braceDelta c = -k := by
        rw [deltaSum_cons, deltaSum_nil] at h2
        omega
      have hcc : c = '}' := by
        by_contra hne
        have hdz : braceDelta c = 0 ∨ braceDelta c = 1 := by
          unfold braceDelta
          by_cases h5 : c = '{'
          · simp [h5]
          · simp [h5, hne]
        rcases hdz with h5 | h5 <;> omega
      subst hcc
      have hk1 : k = 1 := by
        have : braceDelta '}' = -1 := by decide
        omega
      subst hk1
      decide
    | cons d B3 =>
      have h1k2 : 1 ≤ k + braceDelta c := by
        have := h1 1 (by simp)
        simpa [deltaSum] using this
      have hcond : (c = '}' && decide (k + braceDelta c = 0)) = false := by
        by_cases hc : c = '}'
        · subst hc
          have hne : ¬ (k + braceDelta '}' = 0) := by omega
          simp [hne]
        · simp [hc]
      rw [braceCutLen, hcond]
      simp only [Bool.false_eq_true, if_false]
      have ihres := ih (k + braceDelta c) ?_ ?_ (by simp)
      · rw [ihres]
        simp
      · intro ℓ hℓ
        have := h1 (ℓ + 1) (by simpa using hℓ)
        rw [List.take_succ_cons, deltaSum_cons] at this
        omega
      · rw [deltaSum_cons] at h2
        omega

/-- A scan that breaks is unaffected by appending characters after the
break point. -/
theorem braceCutLen_append_some : ∀ (xs : List Char) (k : Int) (e : Nat),
    braceCutLen k xs = some e → ∀ ys, braceCutLen k (xs ++ ys) = some e := by
  intro xs
  induction xs with
  | nil =>
    intro k e h
    exact nomatch h
  | cons c rest ih =>
    intro k e h ys
    by_cases hcond : (c = '}' && decide (k + braceDelta c = 0)) = true
    · rw [braceCutLen, hcond] at h
      rw [List.cons_append, braceCutLen, hcond]
      exact h
    · rw [Bool.not_eq_true] at hcond
      rw [braceCutLen, hcond] at h
      simp only [Bool.false_eq_true, if_false] at h
      rw [Option.map_eq_some'] at h
      obtain ⟨e2, he2, heq⟩ := h
      rw [List.cons_append, braceCutLen, hcond]
      simp only [Bool.false_eq_true, if_false]
      rw [ih _ _ he2 ys]
      rw [← heq]
      rfl

/-- C4 counterexample: a syntactically valid JSON object whose string
value contains a closing brace, followed by trailing prose. The repair
step's brace counting cuts inside the string literal, so it does not
recover the JSON substring, and the parse of the repaired text fails
while the object alone parses. -/
theorem brace_repair_counterexample :
    jsonObjectExact ("\x7b\"a\":\"\x7d\"\x7d".toList) =
      some (Json.obj [(['a'], Json.str ['\x7d'])]) ∧
    jsonParse ("\x7b\"a\":\"\x7d\"\x7d".toList) =
      some (Json.obj [(['a'], Json.str ['\x7d'])]) ∧
    braceCut ("\x7b\"a\":\"\x7d\"\x7d".toList ++ " x".toList) ≠
      "\x7b\"a\":\"\x7d\"\x7d".toList ∧
    jsonParse (braceCut ("\x7b\"a\":\"\x7d\"\x7d".toList ++ " x".toList)) = none := by
  refine ⟨rfl, rfl, ?_, rfl⟩
  decide

/-- C4 (amended): for every input text consisting of a syntactically
valid JSON object none of whose string lexemes (keys or string values)
contains a brace character, followed by arbitrary trailing prose, the
repair step's brace counting recovers exactly the JSON substring, so the
parse of the repaired text equals the parse of the JSON object alone. -/
theorem braceCut_recovers_json (j p : List Char) (v : Json)
    (hj : jsonObjectExact j = some v) (hnb : noBraceJ v = true) :
    braceCut (j ++ p) = j ∧
    jsonParse (braceCut (j ++ p)) = jsonParse j ∧
    jsonParse j = some v := by
  unfold jsonObjectExact at hj
  split at hj
  case h_2 hne => exact nomatch hj
  case h_1 x ms heqp =>
    rw [Option.some.injEq] at hj
    subst hj
    have hnbM : noBraceM ms = true := by
      simp only [noBraceJ] at hnb
      exact hnb
    obtain ⟨B, hB, hneg⟩ := pValue_obj_shape heqp hnbM
    rw [List.append_nil] at hB
    have hscan : braceCutLen 1 B = some B.length := by
      refine braceScanComplete B 1 ?_ ?_ (negPfx_ne_nil hneg)
      · intro ℓ hℓ
        have := hneg.2 ℓ hℓ
        omega
      · have := hneg.1
        omega
    have hcut : braceCut (j ++ p) = j := by
      rw [hB]
      show braceCut ('{' :: (B ++ p)) = '{' :: B
      have hstep : braceCutLen 0 ('{' :: (B ++ p)) = some (B.length + 1) := by
        rw [braceCutLen]
        have hcond : (('{' : Char) = '}' && decide ((0 : Int) + braceDelta '{' = 0)) =
            false := by decide
        rw [hcond]
        simp only [Bool.false_eq_true, if_false]
        have : (0 : Int) + braceDelta '{' = 1 := by decide
        rw [this, braceCutLen_append_some B 1 B.length hscan p]
        rfl
      unfold braceCut
      rw [hstep]
      show List.take (B.length + 1) ('{' :: (B ++ p)) = '{' :: B
      rw [List.take_succ_cons]
      congr 1
      have : B.length ≤ B.length := le_refl _
      rw [List.take_append_eq_append_take, List.take_of_length_le (le_refl _),
        Nat.sub_self, List.take_zero, List.append_nil]
    have hskip : skipWs j = j := by
      rw [hB]
      rw [skipWs, List.dropWhile_cons_of_neg]
      decide
    have hparse : jsonParse j = some (Json.obj ms) := by
      unfold jsonParse
      rw [hskip, heqp]
      rfl
    exact ⟨hcut, by rw [hcut], hparse⟩

/-- Witness for the amended C4 at a concrete object and prose with a
stray closing brace. -/
theorem braceCut_recovers_json_example :
    braceCut ("\x7b\"a\":1\x7d".toList ++ " x \x7d".toList) = "\x7b\"a\":1\x7d".toList ∧
    jsonParse (braceCut ("\x7b\"a\":1\x7d".toList ++ " x \x7d".toList)) =
      jsonParse ("\x7b\"a\":1\x7d".toList) ∧
    jsonParse ("\x7b\"a\":1\x7d".toList) = some (Json.obj [(['a'], Json.num ['1'])]) := by
  exact braceCut_recovers_json ("\x7b\"a\":1\x7d".toList) (" x \x7d".toList)
    (Json.obj [(['a'], Json.num ['1'])]) rfl (by simp [noBraceJ, noBraceM, noBrace, nonBraceChar])

/-- C1: appending a new playlist version after a revert discards all
versions after the cursor and pushes the new version, and the cursor
moves to the new last index. -/
theorem tune_append_truncates {α : Type} (hist : List α) (c : Nat) (v : α)
    (hc : c < hist.length) :
    (appendVersion hist c v).1 = hist.take (c + 1) ++ [v] ∧
    (appendVersion hist c v).1.length = c + 2 ∧
    (appendVersion hist c v).2 = (appendVersion hist c v).1.length - 1 ∧
    (appendVersion hist c v).1.getLast? = some v := by
  refine ⟨rfl, ?_, ?_, ?_⟩
  · simp only [appendVersion, List.length_append, List.length_take, List.length_singleton]
    omega
  · simp only [appendVersion, List.length_append, List.length_take, List.length_singleton]
    omega
  · simp only [appendVersion]
    exact List.getLast?_concat _

/-- Witness for C1 at the specification's example: history A, B, C with
the cursor at 1 (B); appending D yields A, B, D with the cursor at 2,
the new last index. -/
theorem tune_append_truncates_example :
    appendVersion ["A", "B", "C"] 1 "D" = (["A", "B", "D"], 2) ∧
    (appendVersion ["A", "B", "C"] 1 "D").2 =
      (appendVersion ["A", "B", "C"] 1 "D").1.length - 1 := by
  have h := tune_append_truncates ["A", "B", "C"] 1 "D" (by norm_num)
  refine ⟨?_, h.2.2.1⟩
  rw [Prod.ext_iff]
  exact ⟨by rw [h.1]; rfl, rfl⟩

/-- C2: when every position of track resolution yields null, the
resolver fails with the no-tracks-resolved error instead of returning an
all-null list. -/
theorem resolver_all_null_errors (search : String → SearchOutcome)
    (aiTracks : List AiTrack) (h : ∀ s ∈ aiTracks, resolveOne search s = none) :
    resolveTracksOnSpotify search aiTracks =
      Except.error ResolveError.noTracksResolved := by
  have hnil : (aiTracks.map (resolveOne search)).filter (fun t => t.isSome) = [] := by
    rw [List.filter_eq_nil_iff]
    intro a ha
    rw [List.mem_map] at ha
    obtain ⟨s, hs, rfl⟩ := ha
    rw [h s hs]
    simp
  simp only [resolveTracksOnSpotify, hnil]
  rfl

/-- Witness for C2: with the search API throwing on every query, a
one-suggestion resolution fails with the no-tracks-resolved error. -/
theorem resolver_all_null_errors_example :
    resolveTracksOnSpotify (fun _ => SearchOutcome.threw) [⟨"Song", "Artist"⟩] =
      Except.error ResolveError.noTracksResolved :=
  resolver_all_null_errors _ _ (fun _ _ => rfl)

/-- C3: when the resolver succeeds, its output has the same length as
the input suggestion list, and the entry at each index is the resolution
of the suggestion at that index. -/
theorem resolver_keeps_length_and_order (search : String → SearchOutcome)
    (aiTracks : List AiTrack) (out : List (Option Track))
    (h : resolveTracksOnSpotify search aiTracks = Except.ok out) :
    out.length = aiTracks.length ∧
    ∀ i : Nat, out[i]? = (aiTracks[i]?).map (resolveOne search) := by
  have hout : out = aiTracks.map (resolveOne search) := by
    by_cases hc :
        ((aiTracks.map (resolveOne search)).filter (fun t => t.isSome)).length = 0
    · simp [resolveTracksOnSpotify, hc] at h
    · simp [resolveTracksOnSpotify, hc] at h
      exact h.symm
  subst hout
  refine ⟨by simp, fun i => ?_⟩
  simp [List.getElem?_map]

/-- Witness for C3 at a two-suggestion input: the first resolves through
the strict query, the second to null; length and positions line up. -/
theorem resolver_keeps_length_and_order_example :
    [some (⟨"id1", 0⟩ : Track), none].length =
      [(⟨"t", "a"⟩ : AiTrack), ⟨"u", "b"⟩].length ∧
    ∀ i : Nat,
      [some (⟨"id1", 0⟩ : Track), none][i]? =
        ([(⟨"t", "a"⟩ : AiTrack), ⟨"u", "b"⟩][i]?).map
          (resolveOne (fun q =>
            if q = "track:t artist:a" then SearchOutcome.ok [⟨"id1", 0⟩]
            else SearchOutcome.ok [])) :=
  resolver_keeps_length_and_order _ _ _ (by rfl)

/-- C7: the resolver tries the strict filtered query first and takes its
first hit; only when that query returns no hit does it run the lenient
query and take its first hit; a position is null exactly when the strict
call threw, or returned no hit and the lenient call threw or returned no
hit. -/
theorem resolver_strict_then_lenient (search : String → SearchOutcome)
    (song : AiTrack) :
    (∀ t ts, search (strictQuery song) = SearchOutcome.ok (t :: ts) →
      resolveOne search song = some t) ∧
    (search (strictQuery song) = SearchOutcome.ok [] →
      resolveOne search song = firstItem (search (lenientQuery song))) ∧
    (resolveOne search song = none ↔
      search (strictQuery song) = SearchOutcome.threw ∨
        (search (strictQuery song) = SearchOutcome.ok [] ∧
          firstItem (search (lenientQuery song)) = none)) := by
  refine ⟨?_, ?_, ?_⟩
  · intro t ts hst
    simp [resolveOne, hst]
  · intro hst
    cases hl : search (lenientQuery song) <;> simp [resolveOne, firstItem, hst, hl]
  · cases hs : search (strictQuery song) with
    | threw => simp [resolveOne, hs]
    | ok items =>
      cases items with
      | nil =>
        cases hl : search (lenientQuery song) with
        | ok items2 => cases items2 <;> simp [resolveOne, firstItem, hs, hl]
        | threw => simp [resolveOne, firstItem, hs, hl]
      | cons t ts => simp [resolveOne, hs]

/-- Witness for C7: with a search oracle that has no hit for the strict
query and one hit for the lenient query, resolution takes the lenient
first hit. -/
theorem resolver_strict_then_lenient_example :
    resolveOne (fun q =>
        if q = "t a" then SearchOutcome.ok [⟨"id2", 5⟩] else SearchOutcome.ok [])
      ⟨"t", "a"⟩ = some ⟨"id2", 5⟩ := by
  have h := (resolver_strict_then_lenient (fun q =>
      if q = "t a" then SearchOutcome.ok [⟨"id2", 5⟩] else SearchOutcome.ok [])
    ⟨"t", "a"⟩).2.1 (by decide)
  rw [h]
  decide

/-- C9: the two deduplication variants diverge on two distinct fetched
objects carrying the same track id. The id-based variant (part_000)
removes the later duplicate as the contract states; the Set-based
variant of generatePlaylist.tsx compares object references, never equal
across fetches, and keeps both. -/
theorem dedup_variant_divergence :
    jsSetDedup [some (⟨"X", 0⟩ : Track), some ⟨"X", 1⟩] =
      [some ⟨"X", 0⟩, some ⟨"X", 1⟩] ∧
    dedupById [some (⟨"X", 0⟩ : Track), some ⟨"X", 1⟩] = [some ⟨"X", 0⟩] := by
  constructor <;> decide

/-- C6: deleting the currently selected first version breaks the history
invariant. With history A, B and the cursor at 0, handleDelete 0 removes
A from the history but the selection callback, closing over the
pre-delete history, re-selects the deleted A; the derived index of the
new state is minus one on a non-empty history. -/
theorem delete_current_first_breaks_invariant :
    histInvariant (⟨[0, 1], some 0⟩ : TuneState Nat) ∧
    handleDelete (⟨[0, 1], some 0⟩ : TuneState Nat) 0 = ⟨[1], some 0⟩ ∧
    currentIndexState (handleDelete (⟨[0, 1], some 0⟩ : TuneState Nat) 0) = -1 ∧
    ¬ histInvariant (handleDelete (⟨[0, 1], some 0⟩ : TuneState Nat) 0) := by
  refine ⟨fun _ => ⟨by decide, by decide⟩, rfl, by decide, fun h => ?_⟩
  have h2 := h (by decide)
  exact absurd h2.1 (by decide)

/-- Validation rejects a parsed value whose tracks property is not a
non-empty array. -/
theorem validateTracks_error (v : Json)
    (hbad : ∀ x xs, ¬ getField v tracksKey = some (Json.arr (x :: xs))) :
    validateTracks v = Except.error PErr.noSongs := by
  unfold validateTracks
  cases hg : getField v tracksKey with
  | none => rfl
  | some j =>
    cases j with
    | arr l =>
      cases l with
      | nil => rfl
      | cons x xs => exact absurd hg (hbad x xs)
    | null => rfl
    | bool b => rfl
    | num a => rfl
    | str a => rfl
    | obj ms => rfl

/-- Validation succeeds only on the value itself, and only with a
non-empty tracks array. -/
theorem validateTracks_ok_inv (u v : Json) (h : validateTracks u = Except.ok v) :
    u = v ∧ ∃ x xs, getField v tracksKey = some (Json.arr (x :: xs)) := by
  unfold validateTracks at h
  cases hg : getField u tracksKey with
  | none => rw [hg] at h; exact nomatch h
  | some j =>
    cases j with
    | arr l =>
      cases l with
      | nil => rw [hg] at h; exact nomatch h
      | cons x xs =>
        rw [hg] at h
        cases h
        exact ⟨rfl, x, xs, hg⟩
    | null => rw [hg] at h; exact nomatch h
    | bool b => rw [hg] at h; exact nomatch h
    | num a => rw [hg] at h; exact nomatch h
    | str a => rw [hg] at h; exact nomatch h
    | obj ms => rw [hg] at h; exact nomatch h

/-- C8: with a candidate span located, the pipeline fails with the parse
error exactly when both parse attempts fail; when a parse attempt
succeeds but the tracks property is missing, not an array, or empty, it
fails with the validation error; and a successful result always carries
a non-empty tracks array. -/
theorem parse_error_taxonomy (data span : List Char) (h : spanOf data = some span) :
    (jsonParse (removeTC span) = none →
      jsonParse (braceCut (removeTC span)) = none →
      parseAiPlaylistResponse data = Except.error PErr.parseFailed) ∧
    (∀ v, (jsonParse (removeTC span) = some v ∨
        (jsonParse (removeTC span) = none ∧
          jsonParse (braceCut (removeTC span)) = some v)) →
      (∀ x xs, ¬ getField v tracksKey = some (Json.arr (x :: xs))) →
      parseAiPlaylistResponse data = Except.error PErr.noSongs) ∧
    (∀ v, parseAiPlaylistResponse data = Except.ok v →
      ∃ x xs, getField v tracksKey = some (Json.arr (x :: xs))) := by
  refine ⟨?_, ?_, ?_⟩
  · intro h1 h2
    simp only [parseAiPlaylistResponse, h, h1, h2]
  · intro v hv hbad
    rcases hv with hv | ⟨h1, hv⟩
    · simp only [parseAiPlaylistResponse, h, hv]
      exact validateTracks_error v hbad
    · simp only [parseAiPlaylistResponse, h, h1, hv]
      exact validateTracks_error v hbad
  · intro v hok
    simp only [parseAiPlaylistResponse, h] at hok
    cases h1 : jsonParse (removeTC span) with
    | some w =>
      rw [h1] at hok
      exact ((validateTracks_ok_inv w v) hok).2
    | none =>
      rw [h1] at hok
      cases h2 : jsonParse (braceCut (removeTC span)) with
      | some w =>
        rw [h2] at hok
        exact ((validateTracks_ok_inv w v) hok).2
      | none => rw [h2] at hok; exact nomatch hok

/-- Witness for C8: a parsed object with no tracks property fails with
the validation error. -/
theorem parse_error_taxonomy_example :
    parseAiPlaylistResponse ("\x7b\"a\":1\x7d".toList) =
      Except.error PErr.noSongs := by
  refine (parse_error_taxonomy ("\x7b\"a\":1\x7d".toList) ("\x7b\"a\":1\x7d".toList)
      rfl).2.1 (Json.obj [(['a'], Json.num ['1'])]) (Or.inl rfl) ?_
  intro x xs hc
  have hg : getField (Json.obj [(['a'], Json.num ['1'])]) tracksKey = none := rfl
  rw [hg] at hc
  exact nomatch hc

/-- C10: an input that is already a syntactically valid JSON object with
no trailing-comma defect, on which the extractor's trailing-comma
cleanup rewrites inside a string literal: direct parsing keeps the
string comma-space-brace, while the extractor's cleanup removes the
comma and the whitespace from the literal, so the parsed objects
differ. -/
theorem extractor_corrupts_string_literal :
    jsonParse ("\x7b\"a\":\", \x7d\"\x7d".toList) =
      some (Json.obj [(['a'], Json.str [',', ' ', '\x7d'])]) ∧
    cleanAIResponse ("\x7b\"a\":\", \x7d\"\x7d".toList) =
      some ("\x7b\"a\":\"\x7d\"\x7d".toList) ∧
    ((cleanAIResponse ("\x7b\"a\":\", \x7d\"\x7d".toList)).elim none jsonParse) =
      some (Json.obj [(['a'], Json.str ['\x7d'])]) ∧
    ¬ (Json.obj [(['a'], Json.str [',', ' ', '\x7d'])] =
        Json.obj [(['a'], Json.str ['\x7d'])]) := by
  refine ⟨rfl, rfl, rfl, ?_⟩
  intro h
  simp at h

/-! ### Trailing-comma cleanup: step equations and comma insertion -/

theorem wsCloseSplit_len {cs w : List Char} {c : Char} {r : List Char}
    (h : wsCloseSplit cs = some (w, c, r)) : r.length < cs.length := by
  unfold wsCloseSplit at h
  split at h
  next x c' r' hdw =>
    split at h
    · rw [Option.some.injEq, Prod.mk.injEq, Prod.mk.injEq] at h
      obtain ⟨-, -, hr⟩ := h
      have hle : (c' :: r').length ≤ cs.length := by
        rw [← hdw]; exact (List.dropWhile_sublist _).length_le
      subst hr
      simp at hle
      omega
    · exact nomatch h
  next x hdw => exact nomatch h

theorem removeTCF_fuel : ∀ (k : Nat) (cs : List Char), cs.length ≤ k →
    ∀ n m : Nat, cs.length ≤ n → cs.length ≤ m →
    removeTCF n cs = removeTCF m cs := by
  intro k
  induction k with
  | zero =>
    intro cs hcs n m _ _
    have hnil : cs = [] := List.eq_nil_of_length_eq_zero (Nat.le_zero.mp hcs)
    subst hnil
    cases n <;> cases m <;> rfl
  | succ k ih =>
    intro cs hcs n m hn hm
    cases cs with
    | nil => cases n <;> cases m <;> rfl
    | cons c rest =>
      simp only [List.length_cons] at hcs hn hm
      cases n with
      | zero => omega
      | succ n' =>
        cases m with
        | zero => omega
        | succ m' =>
          rw [removeTCF, removeTCF]
          by_cases hc : c = ','
          · simp only [if_pos hc]
            cases hw : wsCloseSplit rest with
            | none =>
              have hrec := ih rest (by omega) n' m' (by omega) (by omega)
              show ',' :: removeTCF n' rest = ',' :: removeTCF m' rest
              rw [hrec]
            | some t =>
              obtain ⟨w, cl, r⟩ := t
              have hr := wsCloseSplit_len hw
              have hrec := ih r (by omega) n' m' (by omega) (by omega)
              show cl :: removeTCF n' r = cl :: removeTCF m' r
              rw [hrec]
          · simp only [if_neg hc]
            have hrec := ih rest (by omega) n' m' (by omega) (by omega)
            rw [hrec]

theorem removeTC_cons {c : Char} (rest : List Char) (hc : ¬ c = ',') :
    removeTC (c :: rest) = c :: removeTC rest := by
  show removeTCF (Nat.succ rest.length) (c :: rest) = c :: removeTC rest
  rw [removeTCF, if_neg hc]
  rfl

theorem removeTC_comma_some {rest w : List Char} {cl : Char} {r : List Char}
    (hm : wsCloseSplit rest = some (w, cl, r)) :
    removeTC (',' :: rest) = cl :: removeTC r := by
  show removeTCF (Nat.succ rest.length) (',' :: rest) = cl :: removeTC r
  rw [removeTCF, if_pos rfl, hm]
  show cl :: removeTCF rest.length r = cl :: removeTC r
  rw [removeTCF_fuel r.length r le_rfl rest.length r.length
    (Nat.le_of_lt (wsCloseSplit_len hm)) le_rfl]
  rfl

theorem removeTC_comma_none {rest : List Char}
    (hm : wsCloseSplit rest = none) :
    removeTC (',' :: rest) = ',' :: removeTC rest := by
  show removeTCF (Nat.succ rest.length) (',' :: rest) = ',' :: removeTC rest
  rw [removeTCF, if_pos rfl, hm]
  rfl

theorem noPendingComma_suffix : ∀ (a b : List Char),
    noPendingComma (a ++ b) = true → noPendingComma b = true := by
  intro a
  induction a with
  | nil => exact fun b h => h
  | cons x a' iha =>
    intro b h
    rw [List.cons_append, noPendingComma, Bool.and_eq_true] at h
    exact iha b h.2

theorem wsCloseSplit_close {cl : Char} (v : List Char)
    (hcl : cl = '}' ∨ cl = ']') :
    wsCloseSplit (cl :: v) = some ([], cl, v) := by
  rcases hcl with h | h <;> subst h <;> rfl

theorem removeTC_insert_comma_nil (cl : Char) (v : List Char)
    (hcl : cl = '}' ∨ cl = ']') :
    removeTC (',' :: cl :: v) = removeTC (cl :: v) := by
  have hclc : ¬ cl = ',' := by rcases hcl with h | h <;> subst h <;> decide
  rw [removeTC_comma_some (wsCloseSplit_close v hcl), removeTC_cons v hclc]

theorem removeTC_insert_comma : ∀ (N : Nat) (u : List Char), u.length ≤ N →
    noPendingComma u = true → ∀ (cl : Char) (v : List Char),
    cl = '}' ∨ cl = ']' →
    removeTC (u ++ ',' :: cl :: v) = removeTC (u ++ cl :: v) := by
  intro N
  induction N with
  | zero =>
    intro u hlen hnp cl v hcl
    have hnil : u = [] := List.eq_nil_of_length_eq_zero (Nat.le_zero.mp hlen)
    subst hnil
    simpa using removeTC_insert_comma_nil cl v hcl
  | succ k ih =>
    intro u hlen hnp cl v hcl
    cases u with
    | nil => simpa using removeTC_insert_comma_nil cl v hcl
    | cons x u' =>
      have hnp' : noPendingComma u' = true := by
        rw [noPendingComma, Bool.and_eq_true] at hnp
        exact hnp.2
      simp only [List.length_cons] at hlen
      by_cases hx : x = ','
      · subst hx
        have hall : u'.all isRegexWs = false := by
          rw [noPendingComma, Bool.and_eq_true] at hnp
          have h1 := hnp.1
          cases hba : u'.all isRegexWs with
          | false => rfl
          | true => rw [hba] at h1; simp at h1
        cases hdw : u'.dropWhile isRegexWs with
        | nil =>
          have : u'.all isRegexWs = true := by
            rw [List.all_eq_true]
            exact List.dropWhile_eq_nil_iff.mp hdw
          rw [this] at hall
          exact nomatch hall
        | cons y u2 =>
          have hu' : u' = u'.takeWhile isRegexWs ++ y :: u2 := by
            have h0 := (List.takeWhile_append_dropWhile isRegexWs u').symm
            rw [hdw] at h0
            exact h0
          have hlu2 : u2.length + 1 ≤ u'.length := by
            have h0 := congrArg List.length hu'
            simp at h0
            omega
          have hnp2 : noPendingComma u2 = true := by
            apply noPendingComma_suffix (u'.takeWhile isRegexWs ++ [y]) u2
            rw [List.append_assoc, List.singleton_append, ← hu']
            exact hnp'
          have hdwA1 : (u' ++ ',' :: cl :: v).dropWhile isRegexWs =
              y :: (u2 ++ ',' :: cl :: v) := by
            rw [List.dropWhile_append, hdw]
            simp
          have hdwA2 : (u' ++ cl :: v).dropWhile isRegexWs =
              y :: (u2 ++ cl :: v) := by
            rw [List.dropWhile_append, hdw]
            simp
          simp only [List.cons_append]
          by_cases hyc : (y = '}' || y = ']') = true
          · have hm1 : wsCloseSplit (u' ++ ',' :: cl :: v) =
                some ((u' ++ ',' :: cl :: v).takeWhile isRegexWs, y,
                  u2 ++ ',' :: cl :: v) := by
              simp [wsCloseSplit, hdwA1, hyc]
            have hm2 : wsCloseSplit (u' ++ cl :: v) =
                some ((u' ++ cl :: v).takeWhile isRegexWs, y,
                  u2 ++ cl :: v) := by
              simp [wsCloseSplit, hdwA2, hyc]
            rw [removeTC_comma_some hm1, removeTC_comma_some hm2]
            rw [ih u2 (by omega) hnp2 cl v hcl]
          · have hm1 : wsCloseSplit (u' ++ ',' :: cl :: v) = none := by
              simp [wsCloseSplit, hdwA1, hyc]
            have hm2 : wsCloseSplit (u' ++ cl :: v) = none := by
              simp [wsCloseSplit, hdwA2, hyc]
            rw [removeTC_comma_none hm1, removeTC_comma_none hm2]
            rw [ih u' (by omega) hnp' cl v hcl]
      · simp only [List.cons_append]
        rw [removeTC_cons _ hx, removeTC_cons _ hx]
        rw [ih u' (by omega) hnp' cl v hcl]

/-! ### Fence handling on a well-formed fenced response -/

theorem findFence_triple (r : List Char) :
    findFence (tick :: tick :: tick :: r) = some ([], r) := rfl

theorem findFence_no_tick : ∀ (a r : List Char), noTick a = true →
    findFence (a ++ tick :: tick :: tick :: r) = some (a, r) := by
  intro a
  induction a with
  | nil => exact fun r _ => findFence_triple r
  | cons x a' iha =>
    intro r ha
    rw [noTick, List.all_cons, Bool.and_eq_true] at ha
    have hx : ¬ x = tick := by simpa using ha.1
    have ha' : noTick a' = true := ha.2
    rw [List.cons_append, findFence]
    rw [if_neg (by simp [hx])]
    rw [iha r ha']
    rfl

theorem fenceExtract_wrap (b2 : List Char) (hb : noTick ('{' :: b2) = true) :
    fenceExtract (fenceWrap ('{' :: b2)) = some (('{' :: b2) ++ ['\n']) := by
  have hnt : noTick (('{' :: b2) ++ ['\n']) = true := by
    rw [noTick, List.all_append, Bool.and_eq_true]
    exact ⟨hb, by decide⟩
  have h2 : findFence (('{' :: b2) ++ '\n' :: tick :: tick :: tick :: []) =
      some (('{' :: b2) ++ ['\n'], []) := by
    have hsh : ('{' :: b2) ++ '\n' :: tick :: tick :: tick :: ([] : List Char) =
        (('{' :: b2) ++ ['\n']) ++ tick :: tick :: tick :: ([] : List Char) := by
      simp
    rw [hsh]
    exact findFence_no_tick _ _ hnt
  have h1 : findFence (fenceWrap ('{' :: b2)) =
      some ([], 'j' :: 's' :: 'o' :: 'n' :: '\n' ::
        (('{' :: b2) ++ '\n' :: tick :: tick :: tick :: [])) :=
    findFence_triple _
  unfold fenceExtract
  rw [h1]
  show (match findFence (('{' :: b2) ++ '\n' :: tick :: tick :: tick :: []) with
        | none => none
        | some (inner, _) => some inner) = some (('{' :: b2) ++ ['\n'])
  rw [h2]

theorem trim_newline (b2 : List Char)
    (hlast : ('{' :: b2).getLast? = some '}') :
    trim (('{' :: b2) ++ ['\n']) = '{' :: b2 := by
  unfold trim
  have h1 : (('{' :: b2) ++ ['\n']).dropWhile isRegexWs =
      ('{' :: b2) ++ ['\n'] := by
    rw [List.cons_append, List.dropWhile_cons]
    simp [show isRegexWs '{' = false from rfl]
  rw [h1]
  have h2 : (('{' :: b2) ++ ['\n']).reverse = '\n' :: ('{' :: b2).reverse := by
    simp
  rw [h2, List.dropWhile_cons]
  simp only [show isRegexWs '\n' = true from rfl, if_true]
  cases hrev : ('{' :: b2).reverse with
  | nil => simp at hrev
  | cons y t =>
    have hy : y = '}' := by
      have h3 := List.head?_reverse ('{' :: b2)
      rw [hrev, hlast] at h3
      exact Option.some.inj h3
    subst hy
    rw [List.dropWhile_cons]
    simp only [show isRegexWs '}' = false from rfl, Bool.false_eq_true,
      if_false]
    rw [← hrev, List.reverse_reverse]

theorem extractBraces_shape (b2 : List Char)
    (hlast : ('{' :: b2).getLast? = some '}') :
    extractBraces ('{' :: b2) = some ('{' :: b2) := by
  unfold extractBraces
  have h1 : ('{' :: b2).dropWhile (fun c => !(c = '{')) = '{' :: b2 := by
    rw [List.dropWhile_cons]
    simp
  rw [h1]
  show (match ('{' :: b2).reverse.dropWhile (fun c => !(c = '}')) with
        | [] => none
        | revSpan => some revSpan.reverse) = some ('{' :: b2)
  cases hrev : ('{' :: b2).reverse with
  | nil => simp at hrev
  | cons y t =>
    have hy : y = '}' := by
      have h3 := List.head?_reverse ('{' :: b2)
      rw [hrev, hlast] at h3
      exact Option.some.inj h3
    subst hy
    rw [List.dropWhile_cons]
    simp only [show (!(('}' : Char) = '}')) = false from rfl,
      Bool.false_eq_true, if_false]
    show some (('}' :: t).reverse) = some ('{' :: b2)
    rw [← hrev, List.reverse_reverse]

theorem spanOf_wrap (b2 : List Char) (hb : noTick ('{' :: b2) = true)
    (hlast : ('{' :: b2).getLast? = some '}') :
    spanOf (fenceWrap ('{' :: b2)) = some ('{' :: b2) := by
  unfold spanOf preClean
  rw [fenceExtract_wrap b2 hb]
  show extractBraces (trim (('{' :: b2) ++ ['\n'])) = some ('{' :: b2)
  rw [trim_newline b2 hlast]
  exact extractBraces_shape b2 hlast

theorem parseAi_of_span (data span : List Char)
    (h : spanOf data = some span) :
    parseAiPlaylistResponse data =
      (match jsonParse (removeTC span) with
       | some v => validateTracks v
       | none =>
         match jsonParse (braceCut (removeTC span)) with
         | some v => validateTracks v
         | none => Except.error PErr.parseFailed) := by
  unfold parseAiPlaylistResponse
  rw [h]

/-- C5: for every fenced response whose JSON object body carries a
trailing comma right before a closing brace or bracket, the extractor
pipeline produces the same parsed structured result as for the same
response with that trailing comma removed. The body starts with an
opening brace and ends with a closing brace (it is the JSON object the
fence carries), contains no backtick (a fence inside the block would end
it early), and has no earlier comma hanging before the insertion point
(that would be a second instance of the very defect under repair). -/
theorem extractor_trailing_comma_invariant (u0 v : List Char) (cl : Char)
    (hcl : cl = '}' ∨ cl = ']')
    (hnp : noPendingComma ('{' :: u0) = true)
    (hlast : (('{' :: u0) ++ cl :: v).getLast? = some '}')
    (ht : noTick (('{' :: u0) ++ ',' :: cl :: v) = true) :
    parseAiPlaylistResponse (fenceWrap (('{' :: u0) ++ ',' :: cl :: v)) =
      parseAiPlaylistResponse (fenceWrap (('{' :: u0) ++ cl :: v)) := by
  rw [noTick, List.all_append, Bool.and_eq_true] at ht
  obtain ⟨htu, htA⟩ := ht
  rw [List.all_cons, Bool.and_eq_true] at htA
  obtain ⟨-, htclv⟩ := htA
  have ht1 : noTick (('{' :: u0) ++ ',' :: cl :: v) = true := by
    rw [noTick, List.all_append, Bool.and_eq_true]
    refine ⟨htu, ?_⟩
    rw [List.all_cons, Bool.and_eq_true]
    exact ⟨by decide, htclv⟩
  have ht2 : noTick (('{' :: u0) ++ cl :: v) = true := by
    rw [noTick, List.all_append, Bool.and_eq_true]
    exact ⟨htu, htclv⟩
  have hlv : (cl :: v).getLast? = some '}' := by
    rw [List.getLast?_append] at hlast
    cases hgl : (cl :: v).getLast? with
    | none => exact absurd (List.getLast?_eq_none_iff.mp hgl) (by simp)
    | some y =>
      rw [hgl] at hlast
      exact hlast
  have hlastC : (('{' :: u0) ++ ',' :: cl :: v).getLast? = some '}' := by
    rw [List.getLast?_append, List.getLast?_cons_cons, hlv]
    rfl
  have hs1 : spanOf (fenceWrap (('{' :: u0) ++ ',' :: cl :: v)) =
      some (('{' :: u0) ++ ',' :: cl :: v) :=
    spanOf_wrap (u0 ++ ',' :: cl :: v) ht1 hlastC
  have hs2 : spanOf (fenceWrap (('{' :: u0) ++ cl :: v)) =
      some (('{' :: u0) ++ cl :: v) :=
    spanOf_wrap (u0 ++ cl :: v) ht2 hlast
  rw [parseAi_of_span _ _ hs1, parseAi_of_span _ _ hs2]
  rw [removeTC_insert_comma ('{' :: u0).length ('{' :: u0) le_rfl hnp cl v hcl]

/-- The trailing-comma invariance at a concrete fenced response: the
object with tracks-like array and a trailing comma before the closing
bracket parses the same as the repaired object. -/
theorem extractor_trailing_comma_invariant_example :
    parseAiPlaylistResponse (fenceWrap ("\x7b\"a\":[1,]\x7d".toList)) =
      parseAiPlaylistResponse (fenceWrap ("\x7b\"a\":[1]\x7d".toList)) := by
  have h := extractor_trailing_comma_invariant ("\"a\":[1".toList)
    ("\x7d".toList) ']' (Or.inr rfl) (by decide) (by decide) (by decide)
  exact h

end GenPlaylist
